import Mathlib

/-!
Verification development for the Simple-Regex-Parser repository
(`src/parser/src/nfa.py`, `src/parser/src/regex_parser.py`,
`src/parser/src/nfa_runner.py`).

The Python object graph is embedded shallowly: `State` objects become
natural-number identifiers allocated by a `Builder`, the transitions stored
inside the `State` objects become one global edge list (insertion-ordered,
exactly as `State.add_transition` appends), and Python `set`s of states
become duplicate-free `List Nat` values handled up to membership.
Python's `deepcopy`, used by `RegexParser._clone_nfa`, is rendered as a
structure-preserving copy of the subgraph reachable from the fragment's
start/accept references, using fresh identifiers.  The recursive-descent
parser (`RegexParser`) is rendered as fuel-indexed structural recursion;
`ValueError` raises become `Except.error` with the same payload data.
-/

namespace SRegex

/-- Embeds `nfa.TransitionLabel`: `value` is the triggering character
(`none` is the epsilon transition), `isWildcard` marks the dot label.
Equality is componentwise, as in `TransitionLabel.__eq__`. -/
structure TransitionLabel where
  value : Option Char
  isWildcard : Bool
deriving DecidableEq, Repr

/-- The epsilon label `TransitionLabel(None)`. -/
def epsTL : TransitionLabel := ⟨none, false⟩

/-- A literal label `TransitionLabel(c)`. -/
def litTL (c : Char) : TransitionLabel := ⟨some c, false⟩

/-- The wildcard label `TransitionLabel('.', is_wildcard=True)`. -/
def dotTL : TransitionLabel := ⟨some '.', true⟩

/-- Embeds `nfa.NFA`: a fragment given by its start and accept state ids. -/
structure NFA where
  start : Nat
  accept : Nat
deriving DecidableEq, Repr

/-- One stored transition: source state, label, destination state. -/
abbrev Edge := Nat × TransitionLabel × Nat

/-- Allocation state of the growing automaton graph: the next fresh state
id and the global list of transitions (in `add_transition` order). -/
structure Builder where
  nextId : Nat
  edges : List Edge
deriving DecidableEq, Repr

/-- Embeds `State()`: allocates a fresh state object. -/
def newState (b : Builder) : Nat × Builder :=
  (b.nextId, ⟨b.nextId + 1, b.edges⟩)

/-- Embeds `State.add_transition`: appends a transition to the graph. -/
def addTransition (src : Nat) (l : TransitionLabel) (dst : Nat) (b : Builder) : Builder :=
  ⟨b.nextId, b.edges ++ [(src, l, dst)]⟩

/-- Embeds `state.transitions.get(label, [])`: the destinations of the
transitions of state `st` that carry label `l`, in insertion order. -/
def targetsFor (edges : List Edge) (st : Nat) (l : TransitionLabel) : List Nat :=
  (edges.filter (fun e => decide (e.1 = st ∧ e.2.1 = l))).map (fun e => e.2.2)

/-- The epsilon successors of a state (`transitions.get(epsilon, [])`). -/
def epsSuccs (edges : List Edge) (st : Nat) : List Nat :=
  targetsFor edges st epsTL

/-- All successors of a state regardless of label; this is the reference
structure `deepcopy` follows when it copies a fragment's object graph. -/
def allSuccs (edges : List Edge) (st : Nat) : List Nat :=
  (edges.filter (fun e => decide (e.1 = st))).map (fun e => e.2.2)

/-- Embeds the body of the `if next_state not in closure` guard inside
`NFARunner._epsilon_closure`: a successor not yet in the closure is added
to the closure and pushed on the stack. The pair is `(stack, closure)`. -/
def pushNew (q : List Nat × List Nat) (n : Nat) : List Nat × List Nat :=
  if n ∈ q.2 then q else (n :: q.1, n :: q.2)

/-- Embeds the `for next_state in ...` loop inside
`NFARunner._epsilon_closure`: fold `pushNew` over the successors of the
popped state. -/
def closureStep (succ : Nat → List Nat) (p : List Nat × List Nat) (st : Nat) :
    List Nat × List Nat :=
  (succ st).foldl pushNew p

/-- Embeds the `while stack:` worklist of `NFARunner._epsilon_closure`,
fuel-indexed (the fuel chosen by callers always suffices: each iteration
pops one state and every push adds a new member to the closure, and the
pushed states are all transition targets). -/
def closureLoop (succ : Nat → List Nat) : Nat → List Nat → List Nat → List Nat
  | 0, _, closure => closure
  | _ + 1, [], closure => closure
  | fuel + 1, st :: rest, closure =>
    let q := closureStep succ (rest, closure) st
    closureLoop succ fuel q.1 q.2

/-- Embeds `NFARunner._epsilon_closure` (`stack = list(states)`,
`closure = set(states)`, then the worklist). State sets are duplicate-free
lists read up to membership. -/
def epsilonClosure (edges : List Edge) (states : List Nat) : List Nat :=
  let s := states.dedup
  closureLoop (epsSuccs edges) (s.length + edges.length + 1) s s

/-- Set-insertion into a duplicate-free list (`set.add`). -/
def addElem (l : List Nat) (n : Nat) : List Nat :=
  if n ∈ l then l else n :: l

/-- Set-union of duplicate-free lists (`set.update`). -/
def unionElems (a b : List Nat) : List Nat :=
  b.foldl addElem a

/-- Embeds `NFARunner._get_next_states`: for every live state, follow the
wildcard transitions and the transitions labelled with the current
character, accumulating the epsilon closures of the targets. -/
def getNextStates (edges : List Edge) (states : List Nat) (c : Char) : List Nat :=
  states.foldl
    (fun ns st =>
      let ns := (targetsFor edges st dotTL).foldl
        (fun a t => unionElems a (epsilonClosure edges [t])) ns
      (targetsFor edges st (litTL c)).foldl
        (fun a t => unionElems a (epsilonClosure edges [t])) ns)
    []

/-- Embeds `nfa_runner.MatchResult` (the captured-group fields are always
passed their `[]` defaults by the runner). `endPos` renders the Python
attribute `end`, which is a reserved word here. -/
structure MatchResult where
  fullmatch : List Char
  startIdx : Nat
  endPos : Nat
  groups : List (List Char)
  groupSpans : List (Nat × Nat)
deriving DecidableEq, Repr

/-- Embeds `MatchResult.__bool__`: true exactly when the matched substring
is non-empty. -/
def MatchResult.toBool (m : MatchResult) : Bool :=
  m.fullmatch != []

/-- Embeds `nfa_runner.NFARunner`: the compiled graph, the fragment to run,
and the two anchor flags. -/
structure Runner where
  edges : List Edge
  nfa : NFA
  anchorStart : Bool
  anchorEnd : Bool
deriving DecidableEq, Repr

/-- Embeds the `for i, char in enumerate(s[start_idx:], start=start_idx)`
loop of `NFARunner._match_from_position`. Returns the final
`(current_states, idx, last_accept_idx)`; the loop breaks (without
updating `idx` or `last_accept_idx`) as soon as the live set dies. -/
def matchLoop (R : Runner) : List Char → Nat → List Nat → Nat → Int →
    List Nat × Nat × Int
  | [], _, current, idx, last => (current, idx, last)
  | c :: rest, i, current, idx, last =>
    let next := getNextStates R.edges current c
    if next.isEmpty then (next, idx, last)
    else
      let last := if R.nfa.accept ∈ next then ((i + 1 : Nat) : Int) else last
      matchLoop R rest (i + 1) next (i + 1) last

/-- Embeds `NFARunner._match_from_position`: returns `(matched, end_index)`
on success and `(false, -1)` otherwise; with `anchor_end` the match is
accepted only when the final live set holds the accept state at the end of
the string, otherwise the last recorded accepting index wins. -/
def matchFromPosition (R : Runner) (s : List Char) (startIdx : Nat) : Bool × Int :=
  let c0 := epsilonClosure R.edges [R.nfa.start]
  let r := matchLoop R (s.drop startIdx) startIdx c0 startIdx (-1)
  if R.anchorEnd then
    if R.nfa.accept ∈ r.1 ∧ r.2.1 = s.length then (true, (r.2.1 : Int)) else (false, -1)
  else if r.2.2 ≠ -1 then (true, r.2.2) else (false, -1)

/-- Embeds `NFARunner.match`: anchored-at-position-0 attempt. -/
def matchStart (R : Runner) (s : List Char) : Option MatchResult :=
  let r := matchFromPosition R s 0
  if r.1 then some ⟨s.take r.2.toNat, 0, r.2.toNat, [], []⟩ else none

/-- Embeds the `for start_idx in start_positions` loop of
`NFARunner.search`. -/
def searchLoop (R : Runner) (s : List Char) : List Nat → Option MatchResult
  | [] => none
  | p :: ps =>
    let r := matchFromPosition R s p
    if r.1 then some ⟨(s.drop p).take (r.2.toNat - p), p, r.2.toNat, [], []⟩
    else searchLoop R s ps

/-- Embeds `NFARunner.search`: scan every start position (only 0 when
`anchor_start` is set) and return the first match. -/
def search (R : Runner) (s : List Char) : Option MatchResult :=
  searchLoop R s (if R.anchorStart then [0] else List.range (s.length + 1))

/-- Embeds `NFARunner.run`: `bool(self.search(s))`, which routes through
`MatchResult.__bool__` when a result object is returned. -/
def run (R : Runner) (s : List Char) : Bool :=
  match search R s with
  | none => false
  | some m => m.toBool

/-- Embeds the `while i <= length` loop of `NFARunner.findall`,
fuel-indexed (each iteration moves the cursor strictly forward, so
`s.length + 2` fuel always completes the scan). -/
def findallLoop (R : Runner) (s : List Char) : Nat → Nat → List MatchResult
  | 0, _ => []
  | fuel + 1, i =>
    if i ≤ s.length then
      let r := matchFromPosition R s i
      if r.1 ∧ (i : Int) < r.2 then
        ⟨(s.drop i).take (r.2.toNat - i), i, r.2.toNat, [], []⟩ ::
          findallLoop R s fuel r.2.toNat
      else findallLoop R s fuel (i + 1)
    else []

/-- Embeds `NFARunner.findall`. -/
def findall (R : Runner) (s : List Char) : List MatchResult :=
  findallLoop R s (s.length + 2) 0

/-- Plain automaton acceptance of a whole string by a compiled fragment:
step the subset simulation through every character from the epsilon
closure of the start state and test the accept state.  This is the
acceptance notion the specification's repetition claims speak about. -/
def nfaAccepts (edges : List Edge) (n : NFA) (s : List Char) : Bool :=
  decide (n.accept ∈ s.foldl (fun cur c => getNextStates edges cur c)
    (epsilonClosure edges [n.start]))

/-! Fragment construction (`RegexParser`'s NFA-building methods). -/

/-- Embeds `RegexParser._builtin_charset` (the Python function returns a
`set`; the canonical listing order used here is the source string's). -/
def builtinCharset (k : Char) : List Char :=
  if k = 'd' then ("0123456789").toList
  else if k = 'w' then
    ("abcdefghijklmnopqrstuvwxyzABCDEFGHIJKLMNOPQRSTUVWXYZ0123456789_").toList
  else if k = 's' then [' ', '\t', '\r', '\n', Char.ofNat 12, Char.ofNat 11]
  else [k]

/-- Two fresh states joined by one literal transition per character of the
set; this is the common shape of `_digit`, `_word`, `_space`. -/
def charsetNFA (cs : List Char) (b : Builder) : NFA × Builder :=
  let (s, b) := newState b
  let (e, b) := newState b
  (⟨s, e⟩, cs.foldl (fun b c => addTransition s (litTL c) e b) b)

/-- Embeds `RegexParser._digit`. -/
def digitNFA (b : Builder) : NFA × Builder := charsetNFA (builtinCharset 'd') b

/-- Embeds `RegexParser._word`. -/
def wordNFA (b : Builder) : NFA × Builder := charsetNFA (builtinCharset 'w') b

/-- Embeds `RegexParser._space`. -/
def spaceNFA (b : Builder) : NFA × Builder := charsetNFA (builtinCharset 's') b

/-- Embeds `RegexParser._literal`. -/
def literalNFA (c : Char) (b : Builder) : NFA × Builder :=
  let (s, b) := newState b
  let (e, b) := newState b
  (⟨s, e⟩, addTransition s (litTL c) e b)

/-- Embeds `RegexParser._dot`. -/
def dotNFA (b : Builder) : NFA × Builder :=
  let (s, b) := newState b
  let (e, b) := newState b
  (⟨s, e⟩, addTransition s dotTL e b)

/-- Embeds `RegexParser._concatenate`: epsilon edge from `a.accept` to
`b.start`, result `(a.start, b.accept)`. -/
def concatenate (a c : NFA) (b : Builder) : NFA × Builder :=
  (⟨a.start, c.accept⟩, addTransition a.accept epsTL c.start b)

/-- Embeds `RegexParser._alternate`. -/
def alternate (a c : NFA) (b : Builder) : NFA × Builder :=
  let (s, b) := newState b
  let (acc, b) := newState b
  let b := addTransition s epsTL a.start b
  let b := addTransition s epsTL c.start b
  let b := addTransition a.accept epsTL acc b
  let b := addTransition c.accept epsTL acc b
  (⟨s, acc⟩, b)

/-- Embeds `RegexParser._kleene_star`. -/
def kleeneStar (a : NFA) (b : Builder) : NFA × Builder :=
  let (s, b) := newState b
  let (acc, b) := newState b
  let b := addTransition s epsTL a.start b
  let b := addTransition s epsTL acc b
  let b := addTransition a.accept epsTL a.start b
  let b := addTransition a.accept epsTL acc b
  (⟨s, acc⟩, b)

/-- Embeds `RegexParser._optional`. -/
def optionalNFA (a : NFA) (b : Builder) : NFA × Builder :=
  let (s, b) := newState b
  let (acc, b) := newState b
  let b := addTransition s epsTL a.start b
  let b := addTransition s epsTL acc b
  let b := addTransition a.accept epsTL acc b
  (⟨s, acc⟩, b)

/-- Embeds `RegexParser._plus`: `self._concatenate(a, self._kleene_star(a))`
— the same fragment `a` is passed to both, so the star is wired over the
original states (the argument `self._kleene_star(a)` is evaluated first). -/
def plusNFA (a : NFA) (b : Builder) : NFA × Builder :=
  let (st, b) := kleeneStar a b
  concatenate a st b

/-- The object subgraph `deepcopy` traverses from an `NFA` value: every
state reachable from the `start` and `accept` references along stored
transitions. -/
def reachableFrom (edges : List Edge) (roots : List Nat) : List Nat :=
  let s := roots.dedup
  closureLoop (allSuccs edges) (s.length + edges.length + 1) s s

/-- Embeds `RegexParser._clone_nfa` (`deepcopy`): fresh state objects for
the whole reachable subgraph, with the transition structure mapped across
the renaming. -/
def cloneNFA (n : NFA) (b : Builder) : NFA × Builder :=
  let reach := reachableFrom b.edges [n.start, n.accept]
  let ren : Nat → Nat := fun x => b.nextId + reach.indexOf x
  let copied := (b.edges.filter (fun e => decide (e.1 ∈ reach))).map
    (fun e => (ren e.1, e.2.1, ren e.2.2))
  (⟨ren n.start, ren n.accept⟩, ⟨b.nextId + reach.length, b.edges ++ copied⟩)

/-- Embeds the `for _ in range(min_repeats - 1)` loop of
`RegexParser._repeat`: clone the accumulated fragment and concatenate. -/
def repeatMand : Nat → NFA → Builder → NFA × Builder
  | 0, r, b => (r, b)
  | k + 1, r, b =>
    let (second, b) := cloneNFA r b
    let (r, b) := concatenate r second b
    repeatMand k r b

/-- Embeds the `for _ in range(max_repeats - min_repeats)` loop of
`RegexParser._repeat`: clone the accumulated fragment, wrap it in
`_optional`, and concatenate. -/
def repeatOpt : Nat → NFA → Builder → NFA × Builder
  | 0, r, b => (r, b)
  | k + 1, r, b =>
    let (c, b) := cloneNFA r b
    let (second, b) := optionalNFA c b
    let (r, b) := concatenate r second b
    repeatOpt k r b

/-- Embeds the fragment-building part of `RegexParser._repeat`, after the
range has been read from the pattern. -/
def buildRepeat (a : NFA) (minR : Nat) (maxR : Option Nat) (b : Builder) :
    NFA × Builder :=
  let (r, b) := repeatMand (minR - 1) a b
  match maxR with
  | some m => repeatOpt (m - minR) r b
  | none =>
    let (c, b) := cloneNFA a b
    let (st, b) := kleeneStar c b
    concatenate r st b

/-! The recursive-descent pattern compiler (`RegexParser`). -/

/-- The compile-time failure (`ValueError` in the source): end of pattern
while a character (possibly a specific expected one) was needed, or a
character mismatching the expected one at some index. `outOfFuel` is an
artifact of the fuel-indexed rendering of the recursion and is never
produced for the patterns considered here; `unexpectedOperator` renders
the unreachable `case _` raise in `RegexParser._factor`. -/
inductive PErr where
  | unexpectedEnd (expected : Option Char)
  | mismatch (expected got : Char) (idx : Nat)
  | unexpectedOperator (op : Char)
  | outOfFuel
deriving DecidableEq, Repr

/-- Embeds the cursor part of `RegexParser`: the pattern, the read
position, the two anchor flags, plus the builder the parser grows. -/
structure ParserState where
  pattern : List Char
  pos : Nat
  anchorStart : Bool
  anchorEnd : Bool
  builder : Builder
deriving DecidableEq, Repr

/-- Embeds `RegexParser._peek`. -/
def peekP (st : ParserState) : Option Char :=
  st.pattern[st.pos]?

/-- Embeds `RegexParser._consume`: at end of pattern, or when an expected
character is given and differs from the actual one, fail; otherwise
advance. -/
def consumeP (expected : Option Char) (st : ParserState) :
    Except PErr (Char × ParserState) :=
  if h : st.pos < st.pattern.length then
    let c := st.pattern.get ⟨st.pos, h⟩
    match expected with
    | some e =>
      if c ≠ e then .error (.mismatch e c st.pos)
      else .ok (c, { st with pos := st.pos + 1 })
    | none => .ok (c, { st with pos := st.pos + 1 })
  else .error (.unexpectedEnd expected)

/-- Runs a builder-only operation inside the parser state. -/
def liftB (f : Builder → NFA × Builder) (st : ParserState) : NFA × ParserState :=
  let (n, b) := f st.builder
  (n, { st with builder := b })

/-- Embeds the `while peek.isdigit(): num_string += consume()` loops of
`RegexParser._parse_repeat_range`. -/
def readDigits : Nat → List Char → ParserState → List Char × ParserState
  | 0, acc, st => (acc, st)
  | fuel + 1, acc, st =>
    match peekP st with
    | some c =>
      if c.isDigit then readDigits fuel (acc ++ [c]) { st with pos := st.pos + 1 }
      else (acc, st)
    | none => (acc, st)

/-- Decimal value of a digit string (`int(num_string)`). -/
def digitsToNat (ds : List Char) : Nat :=
  ds.foldl (fun n c => n * 10 + (c.toNat - 48)) 0

/-- Embeds the part of `RegexParser._parse_repeat_range` after the comma:
an optional number then the closing brace. -/
def repeatRangeAfterComma (fuel : Nat) (minV : Nat) (st : ParserState) :
    Except PErr ((Nat × Option Nat) × ParserState) := do
  let (ds, st) := readDigits fuel [] st
  let maxV := if ds.isEmpty then none else some (digitsToNat ds)
  let (_, st) ← consumeP (some (Char.ofNat 125)) st
  pure ((minV, maxV), st)

/-- Embeds `RegexParser._parse_repeat_range` (the brace contents; the
opening brace has already been consumed by `_factor`). An exact-count
range returns `max_repeats = None`, just as the source does. -/
def parseRepeatRange (fuel : Nat) (st : ParserState) :
    Except PErr ((Nat × Option Nat) × ParserState) := do
  if peekP st = some ',' then
    let (_, st) ← consumeP (some ',') st
    repeatRangeAfterComma fuel 0 st
  else
    let (ds, st) := readDigits fuel [] st
    let minV := if ds.isEmpty then 0 else digitsToNat ds
    if peekP st = some ',' then
      let (_, st) ← consumeP (some ',') st
      repeatRangeAfterComma fuel minV st
    else
      let (_, st) ← consumeP (some (Char.ofNat 125)) st
      pure ((minV, none), st)

/-- Set-insertion of a character (`set.add` on the class accumulator). -/
def addCharSet (l : List Char) (c : Char) : List Char :=
  if c ∈ l then l else l ++ [c]

/-- Set-union of characters (`set.update` on the class accumulator). -/
def updateCharSet (l : List Char) (cs : List Char) : List Char :=
  cs.foldl addCharSet l

/-- Embeds `chr(c) for c in range(ord(start_ch), ord(end_ch) + 1)`; empty
when the code points are reversed, exactly as Python's `range`. -/
def rangeChars (sc ec : Char) : List Char :=
  (List.range (ec.toNat + 1 - sc.toNat)).map (fun k => Char.ofNat (sc.toNat + k))

/-- Embeds Python's `string.printable` as a set: digits, ASCII letters,
punctuation (code points 33–47, 58–64, 91–96, 123–126) and the six
whitespace characters — one hundred characters in total. -/
def printableChars : List Char :=
  ("0123456789").toList ++
  ("abcdefghijklmnopqrstuvwxyzABCDEFGHIJKLMNOPQRSTUVWXYZ").toList ++
  ((List.range 15).map (fun k => Char.ofNat (33 + k))) ++
  ((List.range 7).map (fun k => Char.ofNat (58 + k))) ++
  ((List.range 6).map (fun k => Char.ofNat (91 + k))) ++
  ((List.range 4).map (fun k => Char.ofNat (123 + k))) ++
  [' ', '\t', '\n', '\r', Char.ofNat 11, Char.ofNat 12]

/-- Embeds the `while (peek := self._peek()) and peek != ']'` loop of
`RegexParser._character_class`: escapes, code-point ranges (recognized
when a `-` follows and a further character exists), single characters. -/
def pClsBody (fuel : Nat) (chars : List Char) (st : ParserState) :
    Except PErr (List Char × ParserState) :=
  match fuel with
  | 0 => .error .outOfFuel
  | fuel + 1 =>
    match peekP st with
    | some c =>
      if c = ']' then pure (chars, st)
      else if c = '\\' then do
        let (_, st) ← consumeP (some '\\') st
        let (esc, st) ← consumeP none st
        pClsBody fuel (updateCharSet chars (builtinCharset esc)) st
      else if st.pos + 2 < st.pattern.length ∧ st.pattern[st.pos + 1]? = some '-' then do
        let (sc, st) ← consumeP none st
        let (_, st) ← consumeP (some '-') st
        let (ec, st) ← consumeP none st
        pClsBody fuel (updateCharSet chars (rangeChars sc ec)) st
      else do
        let (c, st) ← consumeP none st
        pClsBody fuel (addCharSet chars c) st
    | none => pure (chars, st)

/-- Embeds `RegexParser._character_class` (the `src` version, which
consumes its own closing bracket): fresh start/end states first, optional
leading negation, the accumulation loop, the closing bracket, complement
against `string.printable` when negated, then one literal transition per
resulting character. -/
def pCharacterCls (fuel : Nat) (st : ParserState) :
    Except PErr (NFA × ParserState) := do
  let (s, b) := newState st.builder
  let (e, b) := newState b
  let st := { st with builder := b }
  let (negate, st) ←
    if peekP st = some '^' then do
      let (_, st) ← consumeP (some '^') st
      pure (true, st)
    else pure (false, st)
  let (chars, st) ← pClsBody fuel [] st
  let (_, st) ← consumeP (some ']') st
  let chars := if negate then printableChars.filter (fun c => decide (c ∉ chars)) else chars
  let b := chars.foldl (fun b c => addTransition s (litTL c) e b) st.builder
  pure (⟨s, e⟩, { st with builder := b })

mutual

/-- Embeds `RegexParser._expression`: a term, then the alternation loop. -/
def pExpression : Nat → ParserState → Except PErr (NFA × ParserState)
  | 0, _ => .error .outOfFuel
  | fuel + 1, st => do
    let (nfa, st) ← pTerm fuel st
    pExprLoop fuel nfa st

/-- The `while self._peek() == '|'` loop of `RegexParser._expression`. -/
def pExprLoop : Nat → NFA → ParserState → Except PErr (NFA × ParserState)
  | 0, _, _ => .error .outOfFuel
  | fuel + 1, nfa, st =>
    if peekP st = some '|' then do
      let (_, st) ← consumeP (some '|') st
      let (nfa2, st) ← pTerm fuel st
      let (nfa3, st) := liftB (alternate nfa nfa2) st
      pExprLoop fuel nfa3 st
    else pure (nfa, st)

/-- Embeds `RegexParser._term`: a factor, then the concatenation loop. -/
def pTerm : Nat → ParserState → Except PErr (NFA × ParserState)
  | 0, _ => .error .outOfFuel
  | fuel + 1, st => do
    let (nfa, st) ← pFactor fuel st
    pTermLoop fuel nfa st

/-- The `while peek not in ')|'` loop of `RegexParser._term`; a `'$'`
breaks the loop. -/
def pTermLoop : Nat → NFA → ParserState → Except PErr (NFA × ParserState)
  | 0, _, _ => .error .outOfFuel
  | fuel + 1, nfa, st =>
    match peekP st with
    | some c =>
      if c = ')' ∨ c = '|' then pure (nfa, st)
      else if c = '$' then pure (nfa, st)
      else do
        let (nfa2, st) ← pFactor fuel st
        let (nfa3, st) := liftB (concatenate nfa nfa2) st
        pTermLoop fuel nfa3 st
    | none => pure (nfa, st)

/-- Embeds `RegexParser._factor`: a base, then the quantifier loop. -/
def pFactor : Nat → ParserState → Except PErr (NFA × ParserState)
  | 0, _ => .error .outOfFuel
  | fuel + 1, st => do
    let (nfa, st) ← pBase fuel st
    pFactorLoop fuel nfa st

/-- The `while peek in '*+?{'` loop of `RegexParser._factor`. -/
def pFactorLoop : Nat → NFA → ParserState → Except PErr (NFA × ParserState)
  | 0, _, _ => .error .outOfFuel
  | fuel + 1, nfa, st =>
    match peekP st with
    | some c =>
      if c = '*' ∨ c = '+' ∨ c = '?' ∨ c = Char.ofNat 123 then do
        let (op, st) ← consumeP none st
        if op = '*' then
          let (nfa2, st) := liftB (kleeneStar nfa) st
          pFactorLoop fuel nfa2 st
        else if op = '+' then
          let (nfa2, st) := liftB (plusNFA nfa) st
          pFactorLoop fuel nfa2 st
        else if op = '?' then
          let (nfa2, st) := liftB (optionalNFA nfa) st
          pFactorLoop fuel nfa2 st
        else if op = Char.ofNat 123 then do
          let (r, st) ← parseRepeatRange fuel st
          let (nfa2, st) := liftB (buildRepeat nfa r.1 r.2) st
          pFactorLoop fuel nfa2 st
        else .error (.unexpectedOperator op)
      else pure (nfa, st)
    | none => pure (nfa, st)

/-- Embeds `RegexParser._base`: group, escape, dot, character class, or a
literal built from whatever character comes next (consuming at end of
input raises). -/
def pBase : Nat → ParserState → Except PErr (NFA × ParserState)
  | 0, _ => .error .outOfFuel
  | fuel + 1, st =>
    match peekP st with
    | some '(' => do
      let (_, st) ← consumeP (some '(') st
      let (nfa, st) ← pExpression fuel st
      let (_, st) ← consumeP (some ')') st
      pure (nfa, st)
    | some '\\' => do
      let (_, st) ← consumeP (some '\\') st
      let (esc, st) ← consumeP none st
      if esc = 'd' then pure (liftB digitNFA st)
      else if esc = 'w' then pure (liftB wordNFA st)
      else if esc = 's' then pure (liftB spaceNFA st)
      else pure (liftB (literalNFA esc) st)
    | some '.' => do
      let (_, st) ← consumeP (some '.') st
      pure (liftB dotNFA st)
    | some '[' => do
      let (_, st) ← consumeP (some '[') st
      pCharacterCls fuel st
    | _ => do
      let (c, st) ← consumeP none st
      pure (liftB (literalNFA c) st)

end

/-- Embeds `RegexParser.parse`: the optional leading `^` (setting
`anchor_start`), the expression, the optional trailing `$` (setting
`anchor_end`).  Whatever input is left after that is simply not read. -/
def parseNFA (fuel : Nat) (st : ParserState) : Except PErr (NFA × ParserState) := do
  let st ←
    if peekP st = some '^' then do
      let (_, st) ← consumeP (some '^') { st with anchorStart := true }
      pure st
    else pure st
  let (nfa, st) ← pExpression fuel st
  let st ←
    if peekP st = some '$' then do
      let (_, st) ← consumeP (some '$') { st with anchorEnd := true }
      pure st
    else pure st
  pure (nfa, st)

/-- The initial parser state for a pattern. -/
def initState (p : List Char) : ParserState :=
  ⟨p, 0, false, false, ⟨0, []⟩⟩

/-- Fuel that amply covers the descent and every loop for a pattern. -/
def fuelFor (p : List Char) : Nat :=
  8 * p.length + 32

/-- Parses a pattern from scratch, returning the fragment and the final
parser state. -/
def parseTop (p : String) : Except PErr (NFA × ParserState) :=
  parseNFA (fuelFor p.toList) (initState p.toList)

/-- Embeds `nfa_regex.compile` (`__init__.py`): parse, then bundle the
fragment with the anchor flags into a runner. -/
def compileR (p : String) : Except PErr Runner := do
  let (nfa, st) ← parseTop p
  pure ⟨st.builder.edges, nfa, st.anchorStart, st.anchorEnd⟩

/-- The runner a pattern compiles to (a dummy runner for patterns that
fail to compile; every use below is backed by a successful compilation). -/
def runnerOf (p : String) : Runner :=
  match compileR p with
  | .ok r => r
  | .error _ => ⟨[], ⟨0, 0⟩, false, false⟩

/-! Concrete patterns and the runners they compile to (each equality is
proved below as part of the corresponding claim's theorem). -/

/-- The pattern `a{2,3}` (braces written as code-point escapes). -/
def patRep : String := "a\x7b2,3\x7d"

/-- The pattern `a*$`. -/
def patStarDollar : String := "a*$"

/-- The pattern `*` — a quantifier character with no preceding atom. -/
def patStar : String := "*"

/-- The malformed counted range `a{2x}`. -/
def patBraceX : String := "a\x7b2x\x7d"

/-- The pattern `(` — a group opened at end of input. -/
def patParen : String := "("

/-- The pattern `(a` — a group missing its closing parenthesis. -/
def patParenA : String := "(a"

/-- The pattern `[a` — a class missing its closing bracket. -/
def patClsOpen : String := "[a"

/-- The reversed-range class `[z-a]`. -/
def patRevCls : String := "[z-a]"

/-- The negated reversed-range class `[^z-a]`. -/
def patNegRevCls : String := "[^z-a]"

/-- The pattern `ab)cd`, with an unmatched closing parenthesis. -/
def patUnbalanced : String := "ab)cd"

/-- The pattern `ab`. -/
def patAB : String := "ab"

/-- The pattern `a$|b`: input following a recognized trailing `$`. -/
def patDollarAlt : String := "a$|b"

/-- The pattern `a$`. -/
def patADollar : String := "a$"

/-- What `patRep` compiles to: two mandatory copies of the `a` fragment
(states 0–3), a deep-cloned copy of that two-copy accumulator (states
4–7) wrapped in an optional (states 8, 9), all concatenated. -/
def runnerRep : Runner :=
  ⟨[(0, litTL 'a', 1), (2, litTL 'a', 3), (1, epsTL, 2),
    (6, litTL 'a', 5), (4, litTL 'a', 7), (5, epsTL, 4),
    (8, epsTL, 6), (8, epsTL, 9), (7, epsTL, 9), (3, epsTL, 8)],
   ⟨0, 9⟩, false, false⟩

/-- What `patStarDollar` compiles to: a starred `a` fragment with the
end anchor set. -/
def runnerStarDollar : Runner :=
  ⟨[(0, litTL 'a', 1), (2, epsTL, 0), (2, epsTL, 3), (1, epsTL, 0),
    (1, epsTL, 3)],
   ⟨2, 3⟩, false, true⟩

/-- What `patStar` compiles to: a literal asterisk fragment. -/
def runnerStarLit : Runner :=
  ⟨[(0, litTL '*', 1)], ⟨0, 1⟩, false, false⟩

/-- What `patRevCls` compiles to: a two-state fragment with no
transitions at all. -/
def runnerEmptyCls : Runner :=
  ⟨[], ⟨0, 1⟩, false, false⟩

/-- What `patNegRevCls` compiles to: one literal transition for every
character of the printable universe. -/
def runnerNegCls : Runner :=
  ⟨printableChars.map (fun c => (0, litTL c, 1)), ⟨0, 1⟩, false, false⟩

/-- A single-literal-`a` runner (what the pattern `a` compiles to). -/
def runnerA : Runner :=
  ⟨[(0, litTL 'a', 1)], ⟨0, 1⟩, false, false⟩

/-! The plus construction on a concrete base fragment, and the
specification's fresh-copy variant of it. -/

/-- A base fragment for exercising `_plus`: `_literal('a')` built in a
fresh builder (states 0 and 1). -/
def plusDemoBase : NFA × Builder := literalNFA 'a' ⟨0, []⟩

/-- `_plus` applied to that base fragment. -/
def plusDemo : NFA × Builder := plusNFA plusDemoBase.1 plusDemoBase.2

/-- Modelled from the spec: `plus(a)` = `concat(a, star(a))` "defined via
a fresh copy semantics for the star's internal component" — the star is
built over a deep clone of `a`, so the mandatory occurrence and the
looped occurrence use disjoint states.  This definition exists only to
compare the specified construction with the source's `_plus`. -/
def specPlusNFA (a : NFA) (b : Builder) : NFA × Builder :=
  let (a2, b) := cloneNFA a b
  let (st, b) := kleeneStar a2 b
  concatenate a st b

/-- The spec's fresh-copy plus applied to the same base fragment. -/
def specPlusDemo : NFA × Builder := specPlusNFA plusDemoBase.1 plusDemoBase.2

/-- What `patUnbalanced` (and also `patAB`) compiles to. -/
def runnerABv : Runner :=
  ⟨[(0, litTL 'a', 1), (2, litTL 'b', 3), (1, epsTL, 2)], ⟨0, 3⟩, false, false⟩

/-- What `patDollarAlt` (and also `patADollar`) compiles to. -/
def runnerADollar : Runner :=
  ⟨[(0, litTL 'a', 1)], ⟨0, 1⟩, false, true⟩

/-! Invariants of the `findall` scan. -/

/-- Every result emitted by the `findall` loop starts at or after the
cursor position the loop was entered with, and spans at least one
character (the loop emits only when `end_idx > i`). -/
theorem findallLoop_mem_bound (R : Runner) (s : List Char) :
    ∀ fuel i r, r ∈ findallLoop R s fuel i → i ≤ r.startIdx ∧ r.startIdx < r.endPos := by
  intro fuel
  induction fuel with
  | zero => intro i r h; simp [findallLoop] at h
  | succ n ih =>
    intro i r h
    unfold findallLoop at h
    by_cases hle : i ≤ s.length
    · rw [if_pos hle] at h
      by_cases hc : (matchFromPosition R s i).1 = true ∧ (i : Int) < (matchFromPosition R s i).2
      · rw [if_pos hc] at h
        have hlt : i < (matchFromPosition R s i).2.toNat := Int.lt_toNat.mpr hc.2
        rcases List.mem_cons.mp h with h | h
        · subst h; exact ⟨Nat.le_refl i, hlt⟩
        · have hb := ih _ r h
          exact ⟨Nat.le_trans (Nat.le_of_lt hlt) hb.1, hb.2⟩
      · rw [if_neg hc] at h
        have hb := ih _ r h
        exact ⟨Nat.le_trans (Nat.le_succ i) hb.1, hb.2⟩
    · rw [if_neg hle] at h
      simp at h

/-- The results of the `findall` loop are pairwise ordered: each result
ends no later than the next one starts, and the start offsets strictly
increase. -/
theorem findallLoop_pairwise (R : Runner) (s : List Char) :
    ∀ fuel i, List.Pairwise
      (fun a b => a.endPos ≤ b.startIdx ∧ a.startIdx < b.startIdx)
      (findallLoop R s fuel i) := by
  intro fuel
  induction fuel with
  | zero => intro i; simp [findallLoop]
  | succ n ih =>
    intro i
    unfold findallLoop
    by_cases hle : i ≤ s.length
    · rw [if_pos hle]
      by_cases hc : (matchFromPosition R s i).1 = true ∧ (i : Int) < (matchFromPosition R s i).2
      · rw [if_pos hc]
        refine List.Pairwise.cons ?_ (ih _)
        intro b hb
        have hbd := findallLoop_mem_bound R s n _ b hb
        have hlt : i < (matchFromPosition R s i).2.toNat := Int.lt_toNat.mpr hc.2
        exact ⟨hbd.1, Nat.lt_of_lt_of_le hlt hbd.1⟩
      · rw [if_neg hc]; exact ih _
    · rw [if_neg hle]; simp

/-! Invariants of the `_epsilon_closure` worklist. -/

/-- Membership in the closure component after folding `pushNew`: exactly
the old closure plus the folded elements. -/
theorem foldl_pushNew_clo_mem (l : List Nat) :
    ∀ p : List Nat × List Nat, ∀ x,
      (x ∈ (l.foldl pushNew p).2 ↔ x ∈ p.2 ∨ x ∈ l) := by
  induction l with
  | nil => simp
  | cons n t ih =>
    intro p x
    simp only [List.foldl_cons]
    rw [ih]
    by_cases h : n ∈ p.2
    · simp only [pushNew, if_pos h, List.mem_cons]
      constructor
      · rintro (hx | hx)
        · exact Or.inl hx
        · exact Or.inr (Or.inr hx)
      · rintro (hx | hx | hx)
        · exact Or.inl hx
        · exact Or.inl (hx ▸ h)
        · exact Or.inr hx
    · simp only [pushNew, if_neg h, List.mem_cons]
      constructor
      · rintro ((hx | hx) | hx)
        · exact Or.inr (Or.inl hx)
        · exact Or.inl hx
        · exact Or.inr (Or.inr hx)
      · rintro (hx | hx | hx)
        · exact Or.inl (Or.inr hx)
        · exact Or.inl (Or.inl hx)
        · exact Or.inr hx

/-- Folding `pushNew` never drops stack entries. -/
theorem foldl_pushNew_stack_sup (l : List Nat) :
    ∀ p : List Nat × List Nat, ∀ x, x ∈ p.1 → x ∈ (l.foldl pushNew p).1 := by
  induction l with
  | nil => intro p x hx; exact hx
  | cons n t ih =>
    intro p x hx
    simp only [List.foldl_cons]
    by_cases h : n ∈ p.2
    · simp only [pushNew, if_pos h]; exact ih p x hx
    · simp only [pushNew, if_neg h]
      exact ih _ x (List.mem_cons_of_mem n hx)

/-- Everything on the stack after folding `pushNew` was already on the
stack or is one of the folded elements. -/
theorem foldl_pushNew_stack_cases (l : List Nat) :
    ∀ p : List Nat × List Nat, ∀ x, x ∈ (l.foldl pushNew p).1 → x ∈ p.1 ∨ x ∈ l := by
  induction l with
  | nil => intro p x hx; exact Or.inl hx
  | cons n t ih =>
    intro p x hx
    simp only [List.foldl_cons] at hx
    by_cases h : n ∈ p.2
    · simp only [pushNew, if_pos h] at hx
      rcases ih p x hx with hx | hx
      · exact Or.inl hx
      · exact Or.inr (List.mem_cons_of_mem n hx)
    · simp only [pushNew, if_neg h] at hx
      rcases ih _ x hx with hx | hx
      · rcases List.mem_cons.mp hx with hx | hx
        · exact Or.inr (hx ▸ List.mem_cons_self n t)
        · exact Or.inl hx
      · exact Or.inr (List.mem_cons_of_mem n hx)

/-- Every folded element ends up either already in the old closure or on
the new stack. -/
theorem foldl_pushNew_elem_cases (l : List Nat) :
    ∀ p : List Nat × List Nat, ∀ x, x ∈ l → x ∈ p.2 ∨ x ∈ (l.foldl pushNew p).1 := by
  induction l with
  | nil => intro p x hx; simp at hx
  | cons n t ih =>
    intro p x hx
    simp only [List.foldl_cons]
    by_cases h : n ∈ p.2
    · simp only [pushNew, if_pos h]
      rcases List.mem_cons.mp hx with hx | hx
      · exact Or.inl (hx ▸ h)
      · exact ih p x hx
    · simp only [pushNew, if_neg h]
      rcases List.mem_cons.mp hx with hx | hx
      · exact Or.inr (foldl_pushNew_stack_sup t _ x
          (hx ▸ List.mem_cons_self n p.1))
      · rcases ih (n :: p.1, n :: p.2) x hx with hx | hx
        · rcases List.mem_cons.mp hx with hx | hx
          · exact Or.inr (foldl_pushNew_stack_sup t _ x
              (hx ▸ List.mem_cons_self n p.1))
          · exact Or.inl hx
        · exact Or.inr hx

/-- A filter over a pointwise-stronger predicate keeps no more
elements. -/
theorem filter_imp_length_le (P Q : Nat → Bool) (h : ∀ x, P x = true → Q x = true) :
    ∀ T : List Nat, (T.filter P).length ≤ (T.filter Q).length := by
  intro T
  induction T with
  | nil => simp
  | cons t T ih =>
    by_cases hP : P t = true
    · rw [List.filter_cons_of_pos hP, List.filter_cons_of_pos (h t hP)]
      exact Nat.succ_le_succ ih
    · rw [List.filter_cons_of_neg (by simpa using hP)]
      by_cases hQ : Q t = true
      · rw [List.filter_cons_of_pos hQ]
        exact Nat.le_trans ih (Nat.le_succ _)
      · rw [List.filter_cons_of_neg (by simpa using hQ)]
        exact ih

/-- Adding a closure member that occurs among the candidates strictly
shrinks the count of candidates outside the closure. -/
theorem filter_notin_cons_lt (n : Nat) :
    ∀ (T clo : List Nat), n ∈ T → n ∉ clo →
      (T.filter (fun x => decide (x ∉ n :: clo))).length <
        (T.filter (fun x => decide (x ∉ clo))).length := by
  intro T
  induction T with
  | nil => intro clo h; simp at h
  | cons t T ih =>
    intro clo hnT hn
    by_cases ht : t = n
    · subst ht
      rw [List.filter_cons_of_neg (by simp), List.filter_cons_of_pos (by simpa using hn)]
      exact Nat.lt_succ_of_le (filter_imp_length_le _ _
        (by intro x hx; simp at hx ⊢; exact hx.2) T)
    · have hnT' : n ∈ T := by
        rcases List.mem_cons.mp hnT with h | h
        · exact absurd h.symm ht
        · exact h
      by_cases hclo : t ∈ clo
      · rw [List.filter_cons_of_neg (by simp [hclo]),
          List.filter_cons_of_neg (by simp [hclo])]
        exact ih clo hnT' hn
      · rw [List.filter_cons_of_pos (by simp [hclo, ht]),
          List.filter_cons_of_pos (by simpa using hclo)]
        exact Nat.succ_lt_succ (ih clo hnT' hn)

/-- Folding `pushNew` does not increase the combined measure of stack
length plus candidates-outside-closure count, provided the folded
elements are all candidates. -/
theorem foldl_pushNew_meas (T : List Nat) :
    ∀ l : List Nat, (∀ x ∈ l, x ∈ T) → ∀ p : List Nat × List Nat,
      (l.foldl pushNew p).1.length +
        (T.filter (fun x => decide (x ∉ (l.foldl pushNew p).2))).length ≤
      p.1.length + (T.filter (fun x => decide (x ∉ p.2))).length := by
  intro l
  induction l with
  | nil => intro _ p; exact Nat.le_refl _
  | cons n t ih =>
    intro hl p
    simp only [List.foldl_cons]
    by_cases h : n ∈ p.2
    · simp only [pushNew, if_pos h]
      exact ih (fun x hx => hl x (List.mem_cons_of_mem n hx)) p
    · simp only [pushNew, if_neg h]
      refine Nat.le_trans (ih (fun x hx => hl x (List.mem_cons_of_mem n hx)) _) ?_
      have hlt := filter_notin_cons_lt n T p.2 (hl n (List.mem_cons_self n t)) h
      simp only [List.length_cons]
      omega

/-- The closure component of the worklist only grows. -/
theorem closureLoop_mono (succ : Nat → List Nat) :
    ∀ fuel stack clo, ∀ x, x ∈ clo → x ∈ closureLoop succ fuel stack clo := by
  intro fuel
  induction fuel with
  | zero => intro stack clo x hx; exact hx
  | succ n ih =>
    intro stack clo x hx
    match stack with
    | [] => exact hx
    | st :: rest =>
      show x ∈ closureLoop succ n (closureStep succ (rest, clo) st).1
        (closureStep succ (rest, clo) st).2
      exact ih _ _ x ((foldl_pushNew_clo_mem _ _ x).mpr (Or.inl hx))

/-- Any property preserved along successors and holding on the initial
stack and closure holds on the whole computed closure. -/
theorem closureLoop_sound (succ : Nat → List Nat) (P : Nat → Prop)
    (hstep : ∀ x y, P x → y ∈ succ x → P y) :
    ∀ fuel stack clo, (∀ x ∈ stack, P x) → (∀ x ∈ clo, P x) →
      ∀ x, x ∈ closureLoop succ fuel stack clo → P x := by
  intro fuel
  induction fuel with
  | zero => intro stack clo _ hclo x hx; exact hclo x hx
  | succ n ih =>
    intro stack clo hstack hclo x hx
    match stack with
    | [] => exact hclo x hx
    | st :: rest =>
      have hst : P st := hstack st (List.mem_cons_self st rest)
      have hsucc : ∀ y ∈ succ st, P y := fun y hy => hstep st y hst hy
      refine ih _ _ ?_ ?_ x hx
      · intro y hy
        rcases foldl_pushNew_stack_cases _ _ y hy with hy | hy
        · exact hstack y (List.mem_cons_of_mem st hy)
        · exact hsucc y hy
      · intro y hy
        rcases (foldl_pushNew_clo_mem _ _ y).mp hy with hy | hy
        · exact hclo y hy
        · exact hsucc y hy

/-- With enough fuel (as supplied by `epsilonClosure`), the worklist runs
to completion and its result is closed under the successor map. -/
theorem closureLoop_closed (succ : Nat → List Nat) (T : List Nat)
    (hT : ∀ x y, y ∈ succ x → y ∈ T) :
    ∀ fuel stack clo,
      stack.length + (T.filter (fun x => decide (x ∉ clo))).length < fuel →
      (∀ x ∈ stack, x ∈ clo) →
      (∀ x ∈ clo, x ∈ stack ∨ ∀ y ∈ succ x, y ∈ clo) →
      ∀ x, x ∈ closureLoop succ fuel stack clo →
        ∀ y ∈ succ x, y ∈ closureLoop succ fuel stack clo := by
  intro fuel
  induction fuel with
  | zero => intro stack clo hf; omega
  | succ n ih =>
    intro stack clo hf hsc hinv x hx y hy
    match stack with
    | [] =>
      rcases hinv x hx with hx' | hx'
      · simp at hx'
      · exact hx' y hy
    | st :: rest =>
      have hTsucc : ∀ z ∈ succ st, z ∈ T := fun z hz => hT st z hz
      refine ih (closureStep succ (rest, clo) st).1 (closureStep succ (rest, clo) st).2
        ?_ ?_ ?_ x hx y hy
      · have hm := foldl_pushNew_meas T (succ st) hTsucc (rest, clo)
        simp only [List.length_cons] at hf
        dsimp only [closureStep] at *
        omega
      · intro z hz
        rcases foldl_pushNew_stack_cases _ _ z hz with hz | hz
        · exact (foldl_pushNew_clo_mem _ _ z).mpr
            (Or.inl (hsc z (List.mem_cons_of_mem st hz)))
        · exact (foldl_pushNew_clo_mem _ _ z).mpr (Or.inr hz)
      · intro z hz
        rcases (foldl_pushNew_clo_mem _ _ z).mp hz with hz | hz
        · rcases hinv z hz with hz' | hz'
          · rcases List.mem_cons.mp hz' with hz' | hz'
            · subst hz'
              exact Or.inr (fun y hy =>
                (foldl_pushNew_clo_mem _ _ y).mpr (Or.inr hy))
            · exact Or.inl (foldl_pushNew_stack_sup _ _ z hz')
          · exact Or.inr (fun y hy =>
              (foldl_pushNew_clo_mem _ _ y).mpr (Or.inl (hz' y hy)))
        · rcases foldl_pushNew_elem_cases (succ st) (rest, clo) z hz with hz' | hz'
          · rcases hinv z hz' with hz'' | hz''
            · rcases List.mem_cons.mp hz'' with hz'' | hz''
              · subst hz''
                exact Or.inr (fun y hy =>
                  (foldl_pushNew_clo_mem _ _ y).mpr (Or.inr hy))
              · exact Or.inl (foldl_pushNew_stack_sup _ _ z hz'')
            · exact Or.inr (fun y hy =>
                (foldl_pushNew_clo_mem _ _ y).mpr (Or.inl (hz'' y hy)))
          · exact Or.inl hz'

/-- `_epsilon_closure` contains its argument set. -/
theorem epsilonClosure_extensive (edges : List Edge) (S : List Nat) :
    ∀ x ∈ S, x ∈ epsilonClosure edges S := by
  intro x hx
  exact closureLoop_mono _ _ _ _ x (List.mem_dedup.mpr hx)

/-- `_epsilon_closure` is closed under epsilon successors. -/
theorem epsilonClosure_closed (edges : List Edge) (S : List Nat) :
    ∀ x ∈ epsilonClosure edges S, ∀ y ∈ epsSuccs edges x, y ∈ epsilonClosure edges S := by
  intro x hx y hy
  refine closureLoop_closed (epsSuccs edges) (edges.map (fun e => e.2.2)) ?_
    _ _ _ ?_ ?_ ?_ x hx y hy
  · intro a b hb
    simp only [epsSuccs, targetsFor, List.mem_map, List.mem_filter] at hb
    rcases hb with ⟨e, he, rfl⟩
    exact List.mem_map.mpr ⟨e, he.1, rfl⟩
  · have h1 : (List.filter (fun x => decide (x ∉ S.dedup))
        (edges.map (fun e => e.2.2))).length ≤ edges.length := by
      calc (List.filter (fun x => decide (x ∉ S.dedup))
          (edges.map (fun e => e.2.2))).length
          ≤ (edges.map (fun e => e.2.2)).length := List.length_filter_le _ _
        _ = edges.length := List.length_map _ _
    omega
  · intro z hz; exact hz
  · intro z hz; exact Or.inl hz

/-- Everything `_epsilon_closure` returns is reachable from the argument
set along epsilon transitions. -/
theorem epsilonClosure_sound (edges : List Edge) (S : List Nat) :
    ∀ x ∈ epsilonClosure edges S,
      ∃ a ∈ S, Relation.ReflTransGen (fun u v => v ∈ epsSuccs edges u) a x := by
  intro x hx
  refine closureLoop_sound _ (fun z => ∃ a ∈ S,
      Relation.ReflTransGen (fun u v => v ∈ epsSuccs edges u) a z) ?_ _ _ _ ?_ ?_ x hx
  · rintro u v ⟨a, ha, hav⟩ hv
    exact ⟨a, ha, Relation.ReflTransGen.tail hav hv⟩
  · intro z hz
    exact ⟨z, List.mem_dedup.mp hz, Relation.ReflTransGen.refl⟩
  · intro z hz
    exact ⟨z, List.mem_dedup.mp hz, Relation.ReflTransGen.refl⟩

/-- A set closed under epsilon successors absorbs every epsilon-reachable
state. -/
theorem reach_mem_of_closed (edges : List Edge) (C : List Nat)
    (hC : ∀ x ∈ C, ∀ y ∈ epsSuccs edges x, y ∈ C) :
    ∀ a x, a ∈ C → Relation.ReflTransGen (fun u v => v ∈ epsSuccs edges u) a x → x ∈ C := by
  intro a x ha hax
  induction hax with
  | refl => exact ha
  | tail _ hstep ih => exact hC _ ih _ hstep

/-- The empty pattern. -/
def patEmpty : String := ""

/-- The input string `b`. -/
def strB : List Char := ("b").toList

/-! The claim theorems. -/

set_option maxHeartbeats 4000000 in
set_option maxRecDepth 4000 in
/-- C1: the claim says the automaton compiled for a counted quantifier
with bounded max accepts exactly `min` to `max` concatenated copies of
the base, with each mandatory copy a deep clone of the base and each
extra an optional-wrapped fresh clone of the base.  The code instead
clones the growing accumulator in both loops, so `a{2,3}` compiles to an
automaton accepting exactly two or four copies of `a`: it rejects
`"aaa"` (which the claim requires it to accept) and accepts `"aaaa"`
(which the claim requires it to reject). -/
theorem c1_counted_repeat_eval :
    compileR patRep = .ok runnerRep ∧
    nfaAccepts runnerRep.edges runnerRep.nfa (List.replicate 2 'a') = true ∧
    nfaAccepts runnerRep.edges runnerRep.nfa (List.replicate 3 'a') = false ∧
    nfaAccepts runnerRep.edges runnerRep.nfa (List.replicate 4 'a') = true ∧
    nfaAccepts runnerRep.edges runnerRep.nfa (List.replicate 1 'a') = false ∧
    nfaAccepts runnerRep.edges runnerRep.nfa (List.replicate 5 'a') = false :=
  ⟨rfl, rfl, rfl, rfl, rfl, rfl⟩

set_option maxHeartbeats 1000000 in
/-- C2: the claim says `run` returns true exactly when `search` returns a
result, zero-length matches included.  For the pattern `a*$` on the
string `b`, `search` returns a zero-length result spanning `[1, 1)`, yet
`run` — which is `bool(search(s))` and so routes through
`MatchResult.__bool__`, i.e. `fullmatch != ""` — returns false. -/
theorem c2_run_search_eval :
    compileR patStarDollar = .ok runnerStarDollar ∧
    search runnerStarDollar strB = some ⟨[], 1, 1, [], []⟩ ∧
    (some (⟨[], 1, 1, [], []⟩ : MatchResult)).isSome = true ∧
    run runnerStarDollar strB = false :=
  ⟨rfl, rfl, rfl, rfl⟩

/-- C3: the claim (and the repository's own `test_empty_pattern`) says
compiling the empty pattern succeeds and matches the empty string with an
empty span.  The code instead raises: `_base` falls through to
`_literal(self._consume())` and `_consume` hits the end of the pattern. -/
theorem c3_empty_pattern_eval :
    compileR patEmpty = .error (.unexpectedEnd none) := rfl

set_option maxHeartbeats 1000000 in
/-- C4 counterexample: the claim says that whenever the `findall` cursor
at position `i` finds a match ending at `e`, a result spanning `[i, e)`
is emitted — including zero-width results when `e = i`.  For `a*$` on
`b`, the cursor fails at 0, moves to 1, finds a zero-width match
`(true, 1)` there, and `findall` still returns the empty list: the
zero-width success is silently dropped by the `end_idx > i` guard. -/
theorem c4_zero_width_cex :
    compileR patStarDollar = .ok runnerStarDollar ∧
    matchFromPosition runnerStarDollar strB 0 = (false, -1) ∧
    matchFromPosition runnerStarDollar strB 1 = (true, 1) ∧
    findall runnerStarDollar strB = [] :=
  ⟨rfl, rfl, rfl, rfl⟩

/-- C4 amended: `findall` emits a result `[i, e)` and advances the cursor
to `e` only on success with `e > i`; a zero-width success is treated like
a failure (nothing is emitted and the cursor advances by 1); the scan
stops when the cursor passes the end.  Consequently every emitted result
spans at least one character. -/
theorem c4_amended_no_zero_width :
    ∀ (R : Runner) (s : List Char) (r : MatchResult),
      r ∈ findall R s → r.startIdx < r.endPos :=
  fun R s r h => (findallLoop_mem_bound R s _ 0 r h).2

/-- Witness for C4 amended, at the single-literal runner on `aa`. -/
theorem c4_amended_no_zero_width_witness :
    (MatchResult.mk (("a").toList) 0 1 [] []).startIdx <
      (MatchResult.mk (("a").toList) 0 1 [] []).endPos :=
  c4_amended_no_zero_width runnerA (("aa").toList) _ (by decide)

/-- C5 counterexample: the claim says a quantifier character with no
preceding atom (for example the pattern `*`) raises a compile-time
syntax error; compiling `*` actually succeeds, producing a
literal-asterisk matcher (`_base` treats the `*` as an ordinary
literal). -/
theorem c5_naked_quantifier_cex :
    compileR patStar = .ok runnerStarLit := rfl

set_option maxHeartbeats 1000000 in
/-- C5 amended: a quantifier character with no preceding atom is consumed
as an ordinary literal and compiles successfully; the single compile-time
error kind (`ValueError`) is raised only on end-of-input while more input
was expected (bare `(`, unclosed `(a`, unclosed `[a`) or on a mismatched
expected delimiter (`a{2x}`, whose `}` is expected at index 3 but `x` is
found). -/
theorem c5_amended_eval :
    compileR patStar = .ok runnerStarLit ∧
    run runnerStarLit (("*").toList) = true ∧
    run runnerStarLit (("a").toList) = false ∧
    compileR patParen = .error (.unexpectedEnd none) ∧
    compileR patParenA = .error (.unexpectedEnd (some ')')) ∧
    compileR patClsOpen = .error (.unexpectedEnd (some ']')) ∧
    compileR patBraceX = .error (.mismatch (Char.ofNat 125) 'x' 3) :=
  ⟨rfl, rfl, rfl, rfl, rfl, rfl, rfl⟩

/-- C6 counterexample: the claim says the plus construction concatenates
the fragment with a star over a fresh copy, the two occurrences sharing
no state.  Applying `_plus` to the literal-`a` fragment (states 0, 1)
allocates only the two star wrapper states (2, 3) — the fresh-copy
construction the spec describes would allocate four — and the star's
entry edge `2 →ε 0` and loop-back edge `1 →ε 0` target the mandatory
occurrence's own start state 0. -/
theorem c6_plus_aliasing_cex :
    plusDemo.2.nextId = 4 ∧ specPlusDemo.2.nextId = 6 ∧
    plusDemo.1.start = 0 ∧
    (2, epsTL, 0) ∈ plusDemo.2.edges ∧ (1, epsTL, 0) ∈ plusDemo.2.edges := by
  refine ⟨rfl, rfl, rfl, ?_, ?_⟩ <;> decide

/-- C6 amended: `_plus(a)` is `concat(a, star(a))` over the same fragment
object — no clone is made, so every state of `a` is shared between the
mandatory occurrence and the star's looped occurrence; the accepted
language is still one-or-more repetitions of the base. -/
theorem c6_amended_plus_shared_states :
    plusDemo = (⟨0, 3⟩, ⟨4,
      [(0, litTL 'a', 1), (2, epsTL, 0), (2, epsTL, 3),
       (1, epsTL, 0), (1, epsTL, 3), (1, epsTL, 2)]⟩) ∧
    nfaAccepts plusDemo.2.edges plusDemo.1 [] = false ∧
    nfaAccepts plusDemo.2.edges plusDemo.1 (("a").toList) = true ∧
    nfaAccepts plusDemo.2.edges plusDemo.1 (("aa").toList) = true ∧
    nfaAccepts plusDemo.2.edges plusDemo.1 (("aaa").toList) = true ∧
    nfaAccepts plusDemo.2.edges plusDemo.1 strB = false :=
  ⟨rfl, rfl, rfl, rfl, rfl, rfl⟩

/-- C7: for every compiled matcher and string, the results of `findall`
are pairwise non-overlapping (each ends no later than the next starts)
and their start offsets strictly increase. -/
theorem c7_findall_nonoverlapping :
    ∀ (R : Runner) (s : List Char),
      List.Pairwise (fun a b => a.endPos ≤ b.startIdx ∧ a.startIdx < b.startIdx)
        (findall R s) :=
  fun R s => findallLoop_pairwise R s _ 0

/-- C8: `_epsilon_closure` is extensive (its result contains the argument
set) and idempotent (closing a closure changes nothing — the results are
equal as sets, which for the duplicate-free lists used here is
`toFinset` equality). -/
theorem c8_epsilon_closure_extensive_idempotent :
    ∀ (edges : List Edge) (S : List Nat),
      (∀ x ∈ S, x ∈ epsilonClosure edges S) ∧
      (epsilonClosure edges (epsilonClosure edges S)).toFinset =
        (epsilonClosure edges S).toFinset := by
  intro edges S
  refine ⟨epsilonClosure_extensive edges S, ?_⟩
  ext x
  simp only [List.mem_toFinset]
  constructor
  · intro hx
    rcases epsilonClosure_sound edges _ x hx with ⟨a, ha, hax⟩
    exact reach_mem_of_closed edges _ (epsilonClosure_closed edges S) a x ha hax
  · intro hx
    exact epsilonClosure_extensive edges _ x hx

/-- Witness for C8 on a one-edge graph and the start set `{0}`. -/
theorem c8_epsilon_closure_witness :
    0 ∈ epsilonClosure [(0, epsTL, 1)] [0] ∧
    (epsilonClosure [(0, epsTL, 1)] (epsilonClosure [(0, epsTL, 1)] [0])).toFinset =
      (epsilonClosure [(0, epsTL, 1)] [0]).toFinset :=
  ⟨(c8_epsilon_closure_extensive_idempotent [(0, epsTL, 1)] [0]).1 0 (by decide),
   (c8_epsilon_closure_extensive_idempotent [(0, epsTL, 1)] [0]).2⟩

set_option maxHeartbeats 2000000 in
/-- C9: `parse()` does not require the whole pattern to be consumed:
`ab)cd` compiles without error to exactly the matcher of `ab` (the
parser stops at the unmatched `)`, final cursor 2 of 5), and `a$|b`
compiles to exactly the matcher of `a$` (the `$` is taken as the end
anchor, final cursor 2 of 4, and `|b` is silently discarded). -/
theorem c9_unconsumed_suffix_discarded :
    compileR patUnbalanced = .ok runnerABv ∧
    compileR patAB = .ok runnerABv ∧
    (parseTop patUnbalanced).map (fun r => r.2.pos) = .ok 2 ∧
    patUnbalanced.length = 5 ∧
    compileR patDollarAlt = .ok runnerADollar ∧
    compileR patADollar = .ok runnerADollar ∧
    (parseTop patDollarAlt).map (fun r => r.2.pos) = .ok 2 ∧
    patDollarAlt.length = 4 :=
  ⟨rfl, rfl, rfl, rfl, rfl, rfl, rfl, rfl⟩

set_option maxHeartbeats 8000000 in
set_option maxRecDepth 16000 in
/-- C10: a reversed character range `[z-a]` is accepted without error and
contributes no characters — the compiled class fragment has no
transitions and matches no character — while the negated `[^z-a]`
matches every character of the printable-ASCII universe. -/
theorem c10_reversed_range_eval :
    compileR patRevCls = .ok runnerEmptyCls ∧
    (∀ c : Char, nfaAccepts runnerEmptyCls.edges runnerEmptyCls.nfa [c] = false) ∧
    compileR patNegRevCls = .ok runnerNegCls ∧
    printableChars.all
      (fun c => nfaAccepts runnerNegCls.edges runnerNegCls.nfa [c]) = true :=
  ⟨rfl, fun _ => rfl, rfl, rfl⟩

end SRegex
